import Mathlib

/-!
Verification of the GenPact frontend document engine.

The development shallowly embeds the three correctness-critical parts of the
repository:

* `src/frontend/src/utils/sectionParser.ts` — `parseContractSections`,
* `src/frontend/src/components/ContractEditor.tsx` — the section save splice
  (`handleSaveSection`) and the `onReplaceText` section branch,
* `src/frontend/src/utils/api.ts` — the SSE stream decoders
  (`generateContractStreamAPI`, `llmHelperStreamAPI`) and the non-streaming
  response extraction of `generateContractAPI`.

JavaScript strings are modelled as `List Char`; every JS string operation used
by the code (`split('\n')`, `trim`, `trimEnd`, `substring`, `startsWith`,
`slice`) is given an executable Lean counterpart with JS semantics, and
`JSON.parse` is modelled by an executable JSON parser.
-/

namespace GenPact

/-- JS strings are modelled as lists of characters (all inputs of interest are
within the BMP, so one `Char` per UTF-16 code unit). -/
abbrev Str := List Char

/-- Whitespace recognised by JavaScript `trim`/`trimEnd` and by the regex class
`\s`: space, tab, line feed, carriage return, vertical tab, form feed,
no-break space and the BOM (the rarer Unicode space code points are omitted;
none of the properties below depends on them). -/
def jsWhite (c : Char) : Bool :=
  c = ' ' || c = '\t' || c = '\n' || c = '\r' || c = '\x0b' ||
  c = '\x0c' || c = '\u00A0' || c = '\uFEFF'

/-- JS `String.prototype.trimEnd`. -/
def jsTrimEnd (s : Str) : Str := (s.reverse.dropWhile jsWhite).reverse

/-- JS `String.prototype.trim`. -/
def jsTrim (s : Str) : Str := jsTrimEnd (s.dropWhile jsWhite)

/-- JS `s.split('\n')`: the list of newline-free fragments; never empty, and
joining the fragments back with `'\n'` restores `s`. -/
def splitNl : Str → List Str
  | [] => [[]]
  | c :: rest =>
    if c = '\n' then [] :: splitNl rest
    else
      match splitNl rest with
      | [] => [[c]]
      | l :: ls => (c :: l) :: ls

/-- JS `s.substring(a, b)`: both arguments are clamped into `[0, s.length]`
and swapped when out of order. -/
def jsSubstring (s : Str) (a b : Int) : Str :=
  let n : Int := s.length
  let a1 := (min (max a 0) n).toNat
  let b1 := (min (max b 0) n).toNat
  if a1 ≤ b1 then (s.drop a1).take (b1 - a1) else (s.drop b1).take (a1 - b1)

/-- JS `s.substring(a)` (substring to the end of the string). -/
def jsSubstringFrom (s : Str) (a : Int) : Str := jsSubstring s a s.length

/-- Port of the header test used throughout the repository:
`trimmed.match(/^(#.[1,6].)\s+(.+)$/)` applied to an already-trimmed line
(`sectionParser.ts` line 27, `ContractEditor.tsx` lines 250 and 303).
Returns the header level (capture 1 length) and the title: capture 2 is the
remainder after the greedy `\s+`, and both call sites pass it through `trim`
(`sectionParser.ts` line 55, `ContractEditor.tsx` line 251), which on a
trimmed line is the identity.  The argument is always a trimmed single line,
so backtracking of `\s+` into `(.+)` can never occur. -/
def matchHeader (t : Str) : Option (Nat × Str) :=
  let k := (t.takeWhile (fun c => c = '#')).length
  let rest := t.dropWhile (fun c => c = '#')
  if 1 ≤ k ∧ k ≤ 6 then
    match rest with
    | [] => none
    | c :: _ =>
      if jsWhite c then
        let title := jsTrim (rest.dropWhile jsWhite)
        if title ≠ [] then some (k, title) else none
      else none
  else none

/-- The `ContractSection` record of `sectionParser.ts` (lines 1-8).
`startIndex`/`endIndex` are JS numbers and the parser can produce negative
end indices, hence `Int`. -/
structure ContractSection where
  title : Str
  body : Str
  fullText : Str
  startIndex : Int
  endIndex : Int
  level : Nat
deriving Repr, DecidableEq, Inhabited

/-- The loop state of `parseContractSections` (lines 16-20): the accumulated
sections, the in-progress section, the running character index and the
preamble accumulator. -/
structure ParseState where
  sections : List ContractSection
  curr : Option ContractSection
  charIndex : Nat
  preamble : Str
deriving Repr, DecidableEq

/-- Closing an in-progress section (`sectionParser.ts` lines 45-50 and 92-97):
assign the end index, re-derive `fullText` by `substring`, and `trimEnd` the
body. -/
def closeSection (contract : Str) (c : ContractSection) (e : Int) : ContractSection :=
  { c with endIndex := e, fullText := jsSubstring contract c.startIndex e,
           body := jsTrimEnd c.body }

/-- One iteration of the `parseContractSections` loop (lines 22-76), processing
one line of the split document.  `charIndex` is the offset of the first
character of `line` and is advanced past the line (and its `'\n'`) at the end
of the iteration, exactly as in the source (line 75). -/
def parseStep (contract : Str) (st : ParseState) (line : Str) : ParseState :=
  match matchHeader (jsTrim line) with
  | some (level, title) =>
    let st1 :=
      if st.preamble ≠ [] ∧ st.sections = [] ∧ st.curr = none then
        { st with
          sections := [⟨"Preamble".toList, jsTrimEnd st.preamble, st.preamble, 0,
            (st.charIndex : Int) - line.length - 1, 0⟩],
          preamble := [] }
      else st
    let st2 :=
      match st1.curr with
      | some c =>
        { st1 with
          sections := st1.sections ++
            [closeSection contract c ((st1.charIndex : Int) - line.length - 1)],
          curr := none }
      | none => st1
    { st2 with
      curr := some ⟨title, [], line ++ ['\n'], (st2.charIndex : Int),
        (st2.charIndex : Int) + line.length, level⟩,
      charIndex := st2.charIndex + line.length + 1 }
  | none =>
    match st.curr with
    | some c =>
      { st with
        curr := some { c with body := c.body ++ line ++ ['\n'],
                              fullText := c.fullText ++ line ++ ['\n'] },
        charIndex := st.charIndex + line.length + 1 }
    | none =>
      { st with preamble := st.preamble ++ line ++ ['\n'],
                charIndex := st.charIndex + line.length + 1 }

/-- The epilogue of `parseContractSections` (lines 78-112): the no-header
fallback (lines 79-89), closing the last section (lines 92-98), and the
residual fallback (lines 100-110). -/
def parseFinish (contract : Str) (st : ParseState) : List ContractSection :=
  if st.preamble ≠ [] ∧ st.sections = [] ∧ st.curr = none then
    [⟨"Contract".toList, jsTrimEnd st.preamble, st.preamble, 0,
      (contract.length : Int), 0⟩]
  else
    let secs :=
      match st.curr with
      | some c => st.sections ++ [closeSection contract c (st.charIndex : Int)]
      | none => st.sections
    if secs = [] ∧ jsTrim contract ≠ [] then
      [⟨"Contract".toList, jsTrim contract, contract, 0, (contract.length : Int), 0⟩]
    else secs

/-- Port of `parseContractSections` (`sectionParser.ts` lines 13-113). -/
def parseContractSections (contract : Str) : List ContractSection :=
  if contract = [] then []
  else parseFinish contract ((splitNl contract).foldl (parseStep contract) ⟨[], none, 0, []⟩)

/-- The header-end scan shared by `handleSaveSection` (`ContractEditor.tsx`
lines 244-258) and the `onReplaceText` callback (lines 297-311): walk the
lines of the section's substring; at the first line matching the header
pattern whose stripped title equals the section title — or which is line 0 —
the header ends after that raw line and its newline; if no line qualifies the
result is 0. -/
def findHeaderEndFrom : List Str → Nat → Str → Nat
  | [], _, _ => 0
  | line :: rest, i, title =>
    match matchHeader (jsTrim line) with
    | some (_, headerText) =>
      if headerText = title ∨ i = 0 then line.length + 1
      else findHeaderEndFrom rest (i + 1) title
    | none => findHeaderEndFrom rest (i + 1) title

/-- The body splice of `handleSaveSection` (`ContractEditor.tsx` lines 239-273);
the `onReplaceText` section branch (lines 292-326) is the same computation
with `currentSection` as the target.  The new body is trimmed, and a single
`'\n'` is re-inserted before the remainder only when the remainder is
non-empty. -/
def handleSaveSplice (contract : Str) (s : ContractSection) (newBody : Str) : Str :=
  let sectionText := jsSubstring contract s.startIndex s.endIndex
  let headerEndIndex := findHeaderEndFrom (splitNl sectionText) 0 s.title
  let bodyStartIndex := s.startIndex + headerEndIndex
  let bodyEndIndex := s.endIndex
  let beforeSection := jsSubstring contract 0 bodyStartIndex
  let afterSection := jsSubstringFrom contract bodyEndIndex
  let cleanNewBody := jsTrim newBody
  beforeSection ++ cleanNewBody ++ (if afterSection ≠ [] then '\n' :: afterSection else [])

/-- `titleSectionIndex` (`ContractEditor.tsx` lines 149-154): the first
level-1 section, else section 0; `none` when there are no sections. -/
def titleSectionIndex (secs : List ContractSection) : Option Nat :=
  if secs = [] then none
  else match secs.findIdx? (fun s => s.level = 1) with
    | some i => some i
    | none => some 0

/-- `handleSaveSection` (`ContractEditor.tsx` lines 222-284) as a function of
the document, the index of the section being edited (the section argument is
`sections[index]` of the current parse) and the edited body: the title
section is never spliced (lines 224-226), otherwise the body splice runs. -/
def handleSaveSection (contract : Str) (index : Nat) (newBody : Str) : Str :=
  let secs := parseContractSections contract
  match secs.get? index with
  | none => contract
  | some s =>
    if titleSectionIndex secs = some index then contract
    else handleSaveSplice contract s newBody

/-- JSON values as produced by `JSON.parse`.  Numbers keep their raw token
(no property below depends on numeric value beyond zero-ness); object fields
keep source order, later duplicates overriding earlier ones on access. -/
inductive Json where
  | null
  | bool (b : Bool)
  | num (raw : Str)
  | str (s : Str)
  | arr (elems : List Json)
  | obj (fields : List (Str × Json))
deriving Repr, Inhabited

/-- Whitespace allowed by the JSON grammar (RFC 8259). -/
def isJsonWs (c : Char) : Bool := c = ' ' || c = '\t' || c = '\n' || c = '\r'

/-- Skip JSON whitespace. -/
def skipWs (s : Str) : Str := s.dropWhile isJsonWs

/-- Value of a hexadecimal digit. -/
def hexVal (c : Char) : Option Nat :=
  if '0' ≤ c ∧ c ≤ '9' then some (c.toNat - '0'.toNat)
  else if 'a' ≤ c ∧ c ≤ 'f' then some (c.toNat - 'a'.toNat + 10)
  else if 'A' ≤ c ∧ c ≤ 'F' then some (c.toNat - 'A'.toNat + 10)
  else none

/-- Prepend a character to the parsed part of a string-parser result. -/
def consParsed (c : Char) : Option (Str × Str) → Option (Str × Str)
  | some (cs, r) => some (c :: cs, r)
  | none => none

/-- Parse the remainder of a JSON string literal (the opening quote already
consumed), returning the decoded content and the input after the closing
quote.  Escapes and the raw-control-character restriction follow RFC 8259. -/
def parseJsonString : Str → Option (Str × Str)
  | '"' :: rest => some ([], rest)
  | '\\' :: '"' :: r => consParsed '"' (parseJsonString r)
  | '\\' :: '\\' :: r => consParsed '\\' (parseJsonString r)
  | '\\' :: '/' :: r => consParsed '/' (parseJsonString r)
  | '\\' :: 'b' :: r => consParsed '\x08' (parseJsonString r)
  | '\\' :: 'f' :: r => consParsed '\x0c' (parseJsonString r)
  | '\\' :: 'n' :: r => consParsed '\n' (parseJsonString r)
  | '\\' :: 'r' :: r => consParsed '\r' (parseJsonString r)
  | '\\' :: 't' :: r => consParsed '\t' (parseJsonString r)
  | '\\' :: 'u' :: a :: b :: c :: d :: r =>
    match hexVal a, hexVal b, hexVal c, hexVal d with
    | some ha, some hb, some hc, some hd =>
      consParsed (Char.ofNat (((ha * 16 + hb) * 16 + hc) * 16 + hd)) (parseJsonString r)
    | _, _, _, _ => none
  | '\\' :: _ => none
  | c :: rest => if c.toNat < 32 then none else consParsed c (parseJsonString rest)
  | [] => none

/-- Parse an optional JSON fraction part. -/
def parseJsonFrac (s : Str) : Option (Str × Str) :=
  match s with
  | '.' :: r =>
    let ds := r.takeWhile Char.isDigit
    if ds = [] then none else some ('.' :: ds, r.dropWhile Char.isDigit)
  | _ => some ([], s)

/-- Parse an optional JSON exponent part. -/
def parseJsonExp (s : Str) : Option (Str × Str) :=
  match s with
  | c :: r =>
    if c = 'e' ∨ c = 'E' then
      let (sgn, r1) :=
        match r with
        | '+' :: r2 => (['+'], r2)
        | '-' :: r2 => (['-'], r2)
        | _ => (([] : Str), r)
      let ds := r1.takeWhile Char.isDigit
      if ds = [] then none else some (c :: (sgn ++ ds), r1.dropWhile Char.isDigit)
    else some ([], s)
  | [] => some ([], [])

/-- Parse a JSON number token (RFC 8259 grammar), returning the raw token. -/
def parseJsonNumber (s : Str) : Option (Str × Str) :=
  let (neg, s1) := match s with | '-' :: r => (true, r) | _ => (false, s)
  let intPart : Option (Str × Str) :=
    match s1 with
    | '0' :: r => some (['0'], r)
    | c :: _ => if c.isDigit then some (s1.takeWhile Char.isDigit, s1.dropWhile Char.isDigit) else none
    | [] => none
  match intPart with
  | none => none
  | some (ip, r) =>
    match parseJsonFrac r with
    | none => none
    | some (fp, r2) =>
      match parseJsonExp r2 with
      | none => none
      | some (ep, r3) => some ((if neg then ['-'] else []) ++ ip ++ fp ++ ep, r3)

mutual

/-- Parse one JSON value (leading whitespace already skipped).  The `Nat`
argument is recursion fuel; `jsonParse` supplies enough for any input. -/
def parseJsonValue : Nat → Str → Option (Json × Str)
  | 0, _ => none
  | Nat.succ fuel, s =>
    match s with
    | 'n' :: 'u' :: 'l' :: 'l' :: r => some (.null, r)
    | 't' :: 'r' :: 'u' :: 'e' :: r => some (.bool true, r)
    | 'f' :: 'a' :: 'l' :: 's' :: 'e' :: r => some (.bool false, r)
    | '"' :: r =>
      match parseJsonString r with
      | some (cs, r2) => some (.str cs, r2)
      | none => none
    | '[' :: r =>
      match skipWs r with
      | ']' :: r2 => some (.arr [], r2)
      | r2 =>
        match parseJsonElems fuel r2 with
        | some (vs, r3) => some (.arr vs, r3)
        | none => none
    | '\x7b' :: r =>
      match skipWs r with
      | '\x7d' :: r2 => some (.obj [], r2)
      | r2 =>
        match parseJsonMembers fuel r2 with
        | some (fs, r3) => some (.obj fs, r3)
        | none => none
    | _ =>
      match parseJsonNumber s with
      | some (raw, r) => some (.num raw, r)
      | none => none

/-- Parse a non-empty comma-separated list of array elements up to and
including the closing bracket. -/
def parseJsonElems : Nat → Str → Option (List Json × Str)
  | 0, _ => none
  | Nat.succ fuel, s =>
    match parseJsonValue fuel (skipWs s) with
    | none => none
    | some (v, r) =>
      match skipWs r with
      | ',' :: r2 =>
        match parseJsonElems fuel r2 with
        | some (vs, r3) => some (v :: vs, r3)
        | none => none
      | ']' :: r2 => some ([v], r2)
      | _ => none

/-- Parse a non-empty comma-separated list of object members up to and
including the closing brace. -/
def parseJsonMembers : Nat → Str → Option (List (Str × Json) × Str)
  | 0, _ => none
  | Nat.succ fuel, s =>
    match skipWs s with
    | '"' :: r =>
      match parseJsonString r with
      | none => none
      | some (k, r2) =>
        match skipWs r2 with
        | ':' :: r3 =>
          match parseJsonValue fuel (skipWs r3) with
          | none => none
          | some (v, r4) =>
            match skipWs r4 with
            | ',' :: r5 =>
              match parseJsonMembers fuel r5 with
              | some (fs, r6) => some ((k, v) :: fs, r6)
              | none => none
            | '\x7d' :: r5 => some ([(k, v)], r5)
            | _ => none
        | _ => none
    | _ => none

end

/-- Model of `JSON.parse`: parse one value surrounded by optional whitespace,
rejecting trailing input.  `2 * length + 4` fuel always suffices, since at
least one character is consumed for every two fuel decrements. -/
def jsonParse (s : Str) : Option Json :=
  match parseJsonValue (2 * s.length + 4) (skipWs s) with
  | some (v, r) => if skipWs r = [] then some v else none
  | none => none

/-- Zero test for a JSON number token: every digit before the exponent is 0. -/
def numIsZero (raw : Str) : Bool :=
  (raw.takeWhile (fun c => c ≠ 'e' ∧ c ≠ 'E')).all (fun c => !c.isDigit || c = '0')

/-- JS truthiness of a parsed JSON value: `null`, `false`, `±0` and `""` are
falsy; every other value (including any array or object) is truthy. -/
def truthy : Json → Bool
  | .null => false
  | .bool b => b
  | .num raw => !numIsZero raw
  | .str s => !s.isEmpty
  | .arr _ => true
  | .obj _ => true

/-- JS property access `v[k]` on a `JSON.parse` result, as an `Option`
(`none` = `undefined`).  On objects the last duplicate of a key wins, as in
`JSON.parse`; on every non-object the access yields `undefined` (the `null`
receiver, which would throw in JS, is special-cased at each call site). -/
def jsProp : Json → Str → Option Json
  | .obj fields, k => ((fields.reverse).find? (fun f => f.1 = k)).map (fun f => f.2)
  | _, _ => none

/-- The delta extraction applied to one parsed `data:` payload
(`api.ts` lines 237-239): `data.delta && typeof data.delta === 'string'`,
i.e. the `delta` field must be present, truthy and a string — so exactly a
non-empty string. -/
def extractDelta (v : Json) : Option Str :=
  match jsProp v "delta".toList with
  | some (.str s) => if s = [] then none else some s
  | _ => none

/-- Processing of one complete line whose trimmed form starts with `"data: "`
(`api.ts` lines 230-245): strip the prefix, ignore blank payloads, parse the
JSON (a parse failure is swallowed by the `try`), extract the delta. -/
def processDataPayload (trimmed : Str) : Option Str :=
  let dataStr := trimmed.drop 6
  if jsTrim dataStr ≠ [] then
    match jsonParse dataStr with
    | some v => extractDelta v
    | none => none
  else none

/-- Per-line behaviour of the `generateContractStreamAPI` decoder
(`api.ts` lines 227-247): only trimmed lines starting with `"data: "` can
emit, and they emit their payload's delta if any. -/
def processDataLine (line : Str) : Option Str :=
  let trimmed := jsTrim line
  if "data: ".toList.isPrefixOf trimmed then processDataPayload trimmed
  else none

/-- Per-line behaviour of the `llmHelperStreamAPI` decoder (`api.ts` lines
340-363): as `processDataLine`, but any other non-blank trimmed line that
does not start with `"event:"` or `"id:"` is emitted verbatim (lines
359-362). -/
def processHelperLine (line : Str) : Option Str :=
  let trimmed := jsTrim line
  if "data: ".toList.isPrefixOf trimmed then processDataPayload trimmed
  else if trimmed ≠ [] ∧ ¬("event:".toList.isPrefixOf trimmed) ∧
          ¬("id:".toList.isPrefixOf trimmed) then some trimmed
  else none

/-- The shared buffering loop of both stream decoders (`api.ts` lines
209-266 and 322-384): append the chunk to the buffer, split on newline, hold
back the last fragment, process every complete line; at end of stream the
non-blank remaining buffer is processed as a final line.  Returns the emitted
deltas in emission order. -/
def ssePumpGo (P : Str → Option Str) : Str → List Str → List Str
  | buffer, [] => if jsTrim buffer ≠ [] then (P buffer).toList else []
  | buffer, chunk :: rest =>
    let lines := splitNl (buffer ++ chunk)
    lines.dropLast.filterMap P ++ ssePumpGo P (lines.getLastD []) rest

/-- The sequence of deltas passed to `onChunk` by `generateContractStreamAPI`
(`api.ts` lines 177-276) when the transport delivers `chunks`. -/
def generateContractStreamDeltas (chunks : List Str) : List Str :=
  ssePumpGo processDataLine [] chunks

/-- The sequence of chunks passed to `onChunk` by `llmHelperStreamAPI`
(`api.ts` lines 289-394) when the transport delivers `chunks`. -/
def llmHelperStreamDeltas (chunks : List Str) : List Str :=
  ssePumpGo processHelperLine [] chunks

/-- Outcome of the response handling of `generateContractAPI` on a parsed
2xx response body (`api.ts` lines 40-78): a returned value, a rejection with
the body's `error` field, the explicit invalid-format rejection (line 78), or
the `TypeError` a `null` body raises at `data.error` (rethrown by line 81). -/
inductive ApiResult where
  | ok (v : Json)
  | errField (e : Json)
  | invalidFormat
  | typeError
deriving Repr, Inhabited

/-- A field value, but only when present and truthy — the test the `if`
chain of `generateContractAPI` applies to each candidate key. -/
def fieldIfTruthy (data : Json) (k : Str) : Option Json :=
  match jsProp data k with
  | some v => if truthy v then some v else none
  | none => none

/-- Port of the response handling of `generateContractAPI` (`api.ts` lines
40-78): reject on a truthy `error` field (lines 43-45), else return the first
truthy field among `llm_response`, `contract`, `text`, `content`, `result`
(lines 48-66), else the body itself when it is a string (lines 69-71), else a
truthy string `message` (lines 74-76), else reject as invalid format
(line 78). -/
def generateContractExtract (data : Json) : ApiResult :=
  match data with
  | .null => .typeError
  | _ =>
    match fieldIfTruthy data "error".toList with
    | some e => .errField e
    | none =>
      match fieldIfTruthy data "llm_response".toList with
      | some v => .ok v
      | none =>
        match fieldIfTruthy data "contract".toList with
        | some v => .ok v
        | none =>
          match fieldIfTruthy data "text".toList with
          | some v => .ok v
          | none =>
            match fieldIfTruthy data "content".toList with
            | some v => .ok v
            | none =>
              match fieldIfTruthy data "result".toList with
              | some v => .ok v
              | none =>
                match data with
                | .str s => .ok (.str s)
                | _ =>
                  match fieldIfTruthy data "message".toList with
                  | some (.str s) => .ok (.str s)
                  | _ => .invalidFormat

/-- Priority search of the spec's candidate keys: the value of the first key
among `llm_response`, `contract`, `text`, `content`, `result` that is present
with a truthy value. -/
def firstTruthyContractField (data : Json) : Option Json :=
  ["llm_response".toList, "contract".toList, "text".toList,
   "content".toList, "result".toList].findSome? (fun k => fieldIfTruthy data k)

/-- Statement of the amended claim C9, following the spec's wording with
`present` corrected to `present and truthy`: the first truthy candidate field
wins; otherwise a bare string body is returned as is; otherwise a truthy
string-valued `message` field; otherwise the call fails with the explicit
invalid-format error. -/
def specContractExtract (data : Json) : ApiResult :=
  match firstTruthyContractField data with
  | some v => .ok v
  | none =>
    match data with
    | .str s => .ok (.str s)
    | _ =>
      match fieldIfTruthy data ("message".toList) with
      | some (.str s) => .ok (.str s)
      | _ => .invalidFormat

/-- Prepend `x` to the first fragment of a fragment list (used to state how
`split('\n')` acts on a concatenation). -/
def glueFirst (x : Str) : List Str → List Str
  | [] => [x]
  | h :: t => (x ++ h) :: t

/-- Lines re-joined with one `'\n'` after each: `joinLinesNl (splitNl s)` is
`s ++ ['\n']`, and for the lines strictly between a header line and the next
header line it is exactly the document text strictly between the two. -/
def joinLinesNl (ls : List Str) : Str := (ls.map (fun l => l ++ ['\n'])).flatten

/-- Grouping of a line list as described by the spec: the lines before the
first header, and, for each header line, the pair of that line and the body
lines following it up to the next header. -/
def splitAtHeaders : List Str → List Str × List (Str × List Str)
  | [] => ([], [])
  | l :: rest =>
    let pg := splitAtHeaders rest
    match matchHeader (jsTrim l) with
    | some _ => ([], (l, pg.1) :: pg.2)
    | none => (l :: pg.1, pg.2)

/-- Reference computation of the bodies produced from an open section with
accumulated body `b` by the remaining lines (proof intermediary for the
parser loop). -/
def bodiesFrom (b : Str) : List Str → List Str
  | [] => [jsTrimEnd b]
  | l :: rest =>
    match matchHeader (jsTrim l) with
    | some _ => jsTrimEnd b :: bodiesFrom [] rest
    | none => bodiesFrom (b ++ l ++ ['\n']) rest

/-- Reference computation of the bodies produced from the preamble phase with
accumulated preamble `p` by the remaining lines (proof intermediary for the
parser loop; meaningful whenever `p` and the lines are not both empty). -/
def bodiesPre (p : Str) : List Str → List Str
  | [] => [jsTrimEnd p]
  | l :: rest =>
    match matchHeader (jsTrim l) with
    | some _ => (if p = [] then [] else [jsTrimEnd p]) ++ bodiesFrom [] rest
    | none => bodiesPre (p ++ l ++ ['\n']) rest

/-!
Checkers and example documents for the claims about the section engine.
-/

/-- The contiguity invariant claimed by the spec for a parse of `d`: adjacent
sections abut (`endIndex` = next `startIndex`), the first section starts at
offset 0, and the last section ends at `d.length`. -/
def sectionsContiguous (secs : List ContractSection) (d : Str) : Bool :=
  (secs.zip secs.tail).all (fun p => p.1.endIndex = p.2.startIndex) &&
  (match secs with | [] => true | s :: _ => s.startIndex = 0) &&
  (match secs.getLast? with | some s => s.endIndex = (d.length : Int) | none => true)

/-- Concatenation, in order, of the `fullText` of every section. -/
def concatFullText (secs : List ContractSection) : Str :=
  (secs.map (fun s => s.fullText)).flatten

/-- A three-section document `[A, B, C]` (all headers level 1). -/
def exDoc : Str := "# A\na\n# B\nb\n# C\nc".toList

/-- `exDoc` after the section save splice writes body `"x"` into section 1
(`B`), which is neither the title section nor out of range. -/
def exDoc1 : Str := handleSaveSection exDoc 1 "x".toList

/-- `exDoc1` after splicing the identical body `"x"` back into section 1 of
its own parse. -/
def exDoc2 : Str := handleSaveSection exDoc1 1 "x".toList

/-- Split never returns an empty fragment list. -/
theorem splitNl_ne_nil (s : Str) : splitNl s ≠ [] := by
  cases s with
  | nil => simp [splitNl]
  | cons c r =>
    simp only [splitNl]
    split
    · simp
    · split <;> simp

/-- Fragments produced by split contain no newline. -/
theorem splitNl_no_newline (s : Str) : ∀ l ∈ splitNl s, '\n' ∉ l := by
  induction s with
  | nil =>
    intro l hl
    simp [splitNl] at hl
    subst hl; simp
  | cons c r ih =>
    intro l hl
    simp only [splitNl] at hl
    by_cases hc : c = '\n'
    · rw [if_pos hc] at hl
      rcases List.mem_cons.mp hl with h | h
      · subst h; simp
      · exact ih l h
    · rw [if_neg hc] at hl
      cases hsp : splitNl r with
      | nil => exact absurd hsp (splitNl_ne_nil r)
      | cons l0 ls =>
        rw [hsp] at hl
        rcases List.mem_cons.mp hl with h | h
        · subst h
          intro hmem
          rcases List.mem_cons.mp hmem with h2 | h2
          · exact hc h2.symm
          · exact ih l0 (by rw [hsp]; exact List.mem_cons_self _ _) h2
        · exact ih l (by rw [hsp]; exact List.mem_cons_of_mem _ h)

/-- A newline-free string splits into exactly itself. -/
theorem splitNl_eq_singleton (s : Str) (h : '\n' ∉ s) : splitNl s = [s] := by
  induction s with
  | nil => rfl
  | cons c r ih =>
    have hc : ¬ c = '\n' := fun hh => h (hh ▸ List.mem_cons_self _ _)
    have hr : '\n' ∉ r := fun hh => h (List.mem_cons_of_mem _ hh)
    simp only [splitNl, if_neg hc, ih hr]

/-- Unfolding lemma for `joinLinesNl` on a cons. -/
theorem joinLinesNl_cons (l : Str) (ls : List Str) :
    joinLinesNl (l :: ls) = l ++ '\n' :: joinLinesNl ls := by
  simp [joinLinesNl]

/-- Re-joining the split of `s` gives `s` with one extra trailing newline —
each fragment, the last included, contributes its own `'\n'`. -/
theorem splitNl_cons_newline (r : Str) : splitNl ('\n' :: r) = [] :: splitNl r := by
  simp [splitNl]

/-- Unfolding lemma for split on a non-newline head. -/
theorem splitNl_cons_other (c : Char) (r : Str) (hc : ¬ c = '\n') (l0 : Str)
    (ls : List Str) (h : splitNl r = l0 :: ls) : splitNl (c :: r) = (c :: l0) :: ls := by
  simp [splitNl, if_neg hc, h]

/-- Re-joining the split of `s` gives `s` with one extra trailing newline —
each fragment, the last included, contributes its own `'\n'`. -/
theorem joinLinesNl_splitNl (s : Str) : joinLinesNl (splitNl s) = s ++ ['\n'] := by
  induction s with
  | nil => rfl
  | cons c r ih =>
    by_cases hc : c = '\n'
    · subst hc
      rw [splitNl_cons_newline, joinLinesNl_cons, ih]
      simp
    · cases hsp : splitNl r with
      | nil => exact absurd hsp (splitNl_ne_nil r)
      | cons l0 ls =>
        rw [hsp] at ih
        rw [splitNl_cons_other c r hc l0 ls hsp]
        rw [joinLinesNl_cons] at ih ⊢
        calc (c :: l0) ++ '\n' :: joinLinesNl ls
            = c :: (l0 ++ '\n' :: joinLinesNl ls) := by simp
          _ = c :: (r ++ ['\n']) := by rw [ih]
          _ = (c :: r) ++ ['\n'] := by simp

/-- Dropping the last element commutes with cons on a non-empty tail. -/
theorem dropLast_cons_ne {α : Type} (x : α) (l : List α) (h : l ≠ []) :
    (x :: l).dropLast = x :: l.dropLast := by
  cases l with
  | nil => exact absurd rfl h
  | cons y t => rfl

/-- The last element of a cons with non-empty tail is the tail's last. -/
theorem getLastD_cons_ne {α : Type} (x d : α) (l : List α) (h : l ≠ []) :
    (x :: l).getLastD d = l.getLastD d := by
  cases l with
  | nil => exact absurd rfl h
  | cons y t => simp [List.getLastD_cons]

/-- How split acts on a concatenation: all fragments of `a` except the last,
then the fragments of `b` with the last fragment of `a` glued onto the first
of them. -/
theorem splitNl_append (a b : Str) :
    splitNl (a ++ b)
      = (splitNl a).dropLast ++ glueFirst ((splitNl a).getLastD []) (splitNl b) := by
  induction a with
  | nil =>
    cases hb : splitNl b with
    | nil => exact absurd hb (splitNl_ne_nil b)
    | cons h t => simp [splitNl, glueFirst, hb]
  | cons c a1 ih =>
    by_cases hc : c = '\n'
    · subst hc
      have hne := splitNl_ne_nil a1
      rw [List.cons_append, splitNl_cons_newline, splitNl_cons_newline, ih,
        dropLast_cons_ne _ _ hne, getLastD_cons_ne _ _ _ hne, List.cons_append]
    · cases hsp : splitNl a1 with
      | nil => exact absurd hsp (splitNl_ne_nil a1)
      | cons l0 ls =>
        rw [hsp] at ih
        rw [List.cons_append, splitNl_cons_other c a1 hc l0 ls hsp]
        cases ls with
        | nil =>
          cases hb : splitNl b with
          | nil => exact absurd hb (splitNl_ne_nil b)
          | cons h t =>
            rw [hb] at ih
            simp only [List.dropLast_single, List.getLastD_cons, List.getLastD_nil,
              glueFirst, List.nil_append] at ih
            rw [splitNl_cons_other _ _ hc _ _ ih]
            simp [glueFirst, hb]
        | cons x xs =>
          rw [List.dropLast_cons₂, List.getLastD_cons, List.cons_append] at ih
          rw [splitNl_cons_other _ _ hc _ _ ih, List.dropLast_cons₂,
            List.getLastD_cons, List.cons_append, List.getLastD_cons,
            List.getLastD_cons]

/-- Membership in the default-last of a non-empty list. -/
theorem getLastD_mem {α : Type} (l : List α) (d : α) (h : l ≠ []) : l.getLastD d ∈ l := by
  induction l generalizing d with
  | nil => exact absurd rfl h
  | cons a t ih =>
    rw [List.getLastD_cons]
    cases t with
    | nil => simp
    | cons b u => exact List.mem_cons_of_mem _ (ih a (by simp))

/-- The held-back fragment of a split never contains a newline. -/
theorem last_splitNl_no_newline (s : Str) : '\n' ∉ (splitNl s).getLastD [] :=
  splitNl_no_newline s _ (getLastD_mem _ _ (splitNl_ne_nil s))

/-- The buffering loop processes, over the whole stream, exactly the lines of
the concatenated chunks: chunk boundaries are invisible.  The hypothesis
states that the per-line function ignores blank lines, which lets the final
flush be treated as ordinary line processing. -/
theorem ssePumpGo_eq (P : Str → Option Str) (hP : ∀ l, jsTrim l = [] → P l = none)
    (chunks : List Str) : ∀ buffer, '\n' ∉ buffer →
    ssePumpGo P buffer chunks = (splitNl (buffer ++ chunks.flatten)).filterMap P := by
  induction chunks with
  | nil =>
    intro buffer hb
    rw [List.flatten_nil, List.append_nil, splitNl_eq_singleton buffer hb]
    simp only [ssePumpGo]
    by_cases ht : jsTrim buffer = []
    · simp [ht, hP buffer ht]
    · cases hpb : P buffer <;> simp [ht, hpb]
  | cons chunk rest ih =>
    intro buffer hb
    simp only [ssePumpGo]
    have hlast := last_splitNl_no_newline (buffer ++ chunk)
    rw [ih _ hlast]
    have h1 : buffer ++ (chunk :: rest).flatten = (buffer ++ chunk) ++ rest.flatten := by
      simp [List.flatten_cons]
    rw [h1, splitNl_append (buffer ++ chunk) rest.flatten, List.filterMap_append]
    congr 1
    rw [splitNl_append ((splitNl (buffer ++ chunk)).getLastD []) rest.flatten,
      splitNl_eq_singleton _ hlast]
    simp [glueFirst]

/-- A blank line cannot produce a delta in the contract stream decoder. -/
theorem processDataLine_blank (l : Str) (h : jsTrim l = []) : processDataLine l = none := by
  simp [processDataLine, h, List.isPrefixOf]

/-- A blank line cannot produce a chunk in the helper stream decoder. -/
theorem processHelperLine_blank (l : Str) (h : jsTrim l = []) : processHelperLine l = none := by
  simp [processHelperLine, h, List.isPrefixOf]

/-- Fuel-independent failure of the JSON value parser on empty input. -/
theorem parseJsonValue_nil (fuel : Nat) : parseJsonValue fuel [] = none := by
  cases fuel <;> rfl

/-- The head left by `skipWs` is not JSON whitespace. -/
theorem skipWs_head_not_ws (s : Str) (c : Char) (r : Str) (h : skipWs s = c :: r) :
    isJsonWs c = false := by
  induction s with
  | nil => simp [skipWs] at h
  | cons a t ih =>
    by_cases hp : isJsonWs a = true
    · rw [show skipWs (a :: t) = skipWs t by simp [skipWs, List.dropWhile_cons, hp]] at h
      exact ih h
    · rw [show skipWs (a :: t) = a :: t by
        simp [skipWs, List.dropWhile_cons]
        intro hq
        exact absurd hq hp] at h
      injection h with h1 _
      subst h1
      simpa using hp

/-- A character that is JS whitespace but not JSON whitespace is one of the
four extra code points. -/
theorem jsWhite_not_jsonWs (c : Char) (hw : jsWhite c = true) (hj : isJsonWs c = false) :
    c = '\x0b' ∨ c = '\x0c' ∨ c = '\u00A0' ∨ c = '\uFEFF' := by
  by_cases h1 : c = '\x0b'
  · exact Or.inl h1
  by_cases h2 : c = '\x0c'
  · exact Or.inr (Or.inl h2)
  by_cases h3 : c = '\u00A0'
  · exact Or.inr (Or.inr (Or.inl h3))
  by_cases h4 : c = '\uFEFF'
  · exact Or.inr (Or.inr (Or.inr h4))
  exfalso
  simp [jsWhite, h1, h2, h3, h4] at hw
  simp [isJsonWs] at hj
  tauto

/-- Fuel-independent failure of the JSON value parser on the four whitespace
code points that the JSON grammar rejects. -/
theorem parseJsonValue_bad_head (fuel : Nat) (c : Char) (r : Str)
    (h : c = '\x0b' ∨ c = '\x0c' ∨ c = '\u00A0' ∨ c = '\uFEFF') :
    parseJsonValue fuel (c :: r) = none := by
  cases fuel with
  | zero => rfl
  | succ f => rcases h with h | h | h | h <;> subst h <;> rfl

/-- A string that trims to nothing consists of JS whitespace only. -/
theorem jsTrim_eq_nil_all_white (s : Str) (h : jsTrim s = []) :
    ∀ c ∈ s, jsWhite c = true := by
  intro c hc
  unfold jsTrim jsTrimEnd at h
  rw [List.reverse_eq_nil_iff] at h
  have hall2 : ∀ x ∈ s.dropWhile jsWhite, jsWhite x = true := by
    intro x hx
    exact List.dropWhile_eq_nil_iff.mp h x (List.mem_reverse.mpr hx)
  have hsplit : c ∈ s.takeWhile jsWhite ++ s.dropWhile jsWhite := by
    rw [List.takeWhile_append_dropWhile]
    exact hc
  rcases List.mem_append.mp hsplit with hcm | hcm
  · exact List.mem_takeWhile_imp hcm
  · exact hall2 c hcm

/-- `JSON.parse` fails on any input that JS-trims to nothing: after skipping
JSON whitespace, either the input is exhausted or its head is one of the four
JS-only whitespace code points, which start no JSON value. -/
theorem jsonParse_blank (s : Str) (h : jsTrim s = []) : jsonParse s = none := by
  have hall := jsTrim_eq_nil_all_white s h
  unfold jsonParse
  cases hs : skipWs s with
  | nil => rw [parseJsonValue_nil]
  | cons c r =>
    have hcm : c ∈ s := (List.dropWhile_sublist _).subset (hs ▸ List.mem_cons_self c r)
    have hw : jsWhite c = true := hall c hcm
    have hj : isJsonWs c = false := skipWs_head_not_ws s c r hs
    rw [parseJsonValue_bad_head _ c r (jsWhite_not_jsonWs c hw hj)]

/-- Claim C1: on `"# A\nx\n# B\ny"` the parse yields offset pairs
`(0, 2)` and `(6, 12)` for a document of length 11: the sections leave the
gap `[2, 6)`, and the last section ends past the end of the document, so the
claimed contiguity invariant fails. -/
theorem parse_offsets_not_contiguous :
    ((parseContractSections "# A\nx\n# B\ny".toList).map (fun s => (s.startIndex, s.endIndex))
      = [(0, 2), (6, 12)])
    ∧ "# A\nx\n# B\ny".toList.length = 11
    ∧ sectionsContiguous (parseContractSections "# A\nx\n# B\ny".toList)
        "# A\nx\n# B\ny".toList = false := by
  refine ⟨by decide, by decide, by decide⟩

/-- Claim C2: concatenating the `fullText` of the parsed sections does not
reconstruct the document: with two headers the result is `"# # B\ny"` instead
of `"# A\nx\n# B\ny"`, and even with zero headers the result carries a spurious
trailing newline (`"hello\n"` for `"hello"`). -/
theorem parse_fullText_concat_mismatch :
    concatFullText (parseContractSections "# A\nx\n# B\ny".toList) = "# # B\ny".toList
    ∧ ¬ concatFullText (parseContractSections "# A\nx\n# B\ny".toList) = "# A\nx\n# B\ny".toList
    ∧ concatFullText (parseContractSections "hello".toList) = "hello\n".toList
    ∧ ¬ concatFullText (parseContractSections "hello".toList) = "hello".toList := by
  refine ⟨by decide, by decide, by decide, by decide⟩

/-- Claim C3: splicing body `"x"` into section `B` of the three-section
document `exDoc` destroys `B`'s header line (`"# B"` is no longer a line of
the result) and changes the re-parsed first section's `fullText` (pre-splice
`"# "`, post-splice `"# A\na\nx\n"`), so splice isolation fails. -/
theorem splice_not_isolated :
    exDoc1 = "# A\na\nx\nB\nb\n# C\nc".toList
    ∧ (parseContractSections exDoc).map (fun s => s.fullText)
        = ["# ".toList, "# ".toList, "# C\nc".toList]
    ∧ (parseContractSections exDoc1).map (fun s => s.fullText)
        = ["# A\na\nx\n".toList, "# C\nc".toList]
    ∧ (splitNl exDoc).contains "# B".toList = true
    ∧ (splitNl exDoc1).contains "# B".toList = false := by
  refine ⟨by decide, by decide, by decide, by decide, by decide⟩

/-- Claim C4: after splicing `"x"` into section 1 of `exDoc`, splicing the
identical body `"x"` back into section 1 of the re-parse does not reproduce
the document: section 1 of the re-parse is now the section titled `C` (the
`B` header was destroyed), so the second splice overwrites `C`'s body. -/
theorem splice_round_trip_fails :
    exDoc2 = "# A\na\nx\nB\nb\n# C\nx".toList ∧ ¬ exDoc2 = exDoc1 := by
  refine ⟨by decide, by decide⟩

/-- Claim C5 counterexample: on the header-free document `" x"` the single
`Contract` section's body is `" x"`, the input with only trailing whitespace
removed — not the (fully) trimmed input `"x"`. -/
theorem no_header_body_not_trimmed :
    parseContractSections " x".toList
      = [⟨"Contract".toList, " x".toList, " x\n".toList, 0, 2, 0⟩]
    ∧ jsTrim " x".toList = "x".toList
    ∧ ¬ " x".toList = "x".toList := by
  refine ⟨by decide, by decide, by decide⟩

/-- Claim C6 counterexample: on `"# A\n\nx"` the parsed body is `"\nx"` — the
text between the header line and the end of the document with only trailing
blank lines trimmed; the leading blank line survives, so the body is not the
claimed both-ends-trimmed text `"x"`. -/
theorem body_keeps_leading_blank :
    (parseContractSections "# A\n\nx".toList).map (fun s => s.body) = ["\nx".toList]
    ∧ jsTrim "\nx".toList = "x".toList
    ∧ ¬ "\nx".toList = "x".toList := by
  refine ⟨by decide, by decide, by decide⟩

/-- Claim C7 counterexample: a `data:` line whose JSON object carries the
string-valued `delta` field `""` emits nothing (the truthiness test drops it),
and the `llmHelperStreamAPI` decoder emits `"hello"` for a line that does not
start with `"data: "` at all. -/
theorem delta_emission_exceptions :
    generateContractStreamDeltas ["data: \x7b\"delta\":\"\"\x7d\n".toList] = []
    ∧ jsonParse "\x7b\"delta\":\"\"\x7d".toList = some (.obj [("delta".toList, .str [])])
    ∧ llmHelperStreamDeltas ["hello\n".toList] = ["hello".toList]
    ∧ "data: ".toList.isPrefixOf (jsTrim "hello".toList) = false := by
  refine ⟨by decide, rfl, by decide, by decide⟩

/-- Claim C8: the logical frame
`data: \x7b"delta":"Hello"\x7d` split across the three chunks
`"data: \x7b\"del"`, `"ta\":\"Hel"`, `"lo\"\x7d\n"` yields exactly one emitted
delta, `"Hello"`. -/
theorem stream_reassembly_hello :
    generateContractStreamDeltas
        ["data: \x7b\"del".toList, "ta\":\"Hel".toList, "lo\"\x7d\n".toList]
      = ["Hello".toList] := by
  rfl

/-- Claim C7 (amended): for every chunk sequence, both decoders emit exactly
the per-line results over the newline-split concatenation of the chunks, in
line order, independent of chunk boundaries; a line of the contract decoder
emits only if its trimmed form starts with `"data: "`; such a line whose
remainder parses as JSON carrying a non-empty string `delta` emits exactly
that delta once; a `data:` line with malformed JSON emits nothing and is not
fatal; the helper decoder additionally emits the trimmed form of any other
non-blank line not starting with `"event:"` or `"id:"`. -/
theorem stream_deltas_characterised :
    (∀ chunks, generateContractStreamDeltas chunks
        = (splitNl chunks.flatten).filterMap processDataLine)
    ∧ (∀ chunks, llmHelperStreamDeltas chunks
        = (splitNl chunks.flatten).filterMap processHelperLine)
    ∧ (∀ line, ¬ ("data: ".toList.isPrefixOf (jsTrim line) = true) →
        processDataLine line = none)
    ∧ (∀ line v s, "data: ".toList.isPrefixOf (jsTrim line) = true →
        jsonParse ((jsTrim line).drop 6) = some v →
        jsProp v ("delta".toList) = some (.str s) → ¬ s = [] →
        processDataLine line = some s)
    ∧ (∀ line, "data: ".toList.isPrefixOf (jsTrim line) = true →
        jsonParse ((jsTrim line).drop 6) = none →
        processDataLine line = none)
    ∧ (∀ line, ¬ ("data: ".toList.isPrefixOf (jsTrim line) = true) →
        ¬ jsTrim line = [] →
        ¬ ("event:".toList.isPrefixOf (jsTrim line) = true) →
        ¬ ("id:".toList.isPrefixOf (jsTrim line) = true) →
        processHelperLine line = some (jsTrim line)) := by
  refine ⟨?_, ?_, ?_, ?_, ?_, ?_⟩
  · intro chunks
    rw [generateContractStreamDeltas, ssePumpGo_eq processDataLine processDataLine_blank
      chunks [] (by simp), List.nil_append]
  · intro chunks
    rw [llmHelperStreamDeltas, ssePumpGo_eq processHelperLine processHelperLine_blank
      chunks [] (by simp), List.nil_append]
  · intro line h
    rw [List.isPrefixOf_iff_prefix,
      show ("data: ".toList : Str) = ['d', 'a', 't', 'a', ':', ' '] from rfl] at h
    simp [processDataLine, h]
  · intro line v s h1 h2 h3 h4
    have hg : ¬ jsTrim ((jsTrim line).drop 6) = [] := by
      intro hb
      rw [jsonParse_blank _ hb] at h2
      exact Option.noConfusion h2
    rw [List.isPrefixOf_iff_prefix,
      show ("data: ".toList : Str) = ['d', 'a', 't', 'a', ':', ' '] from rfl] at h1
    simp only [show ("delta".toList : Str) = ['d', 'e', 'l', 't', 'a'] from rfl] at h3
    simp [processDataLine, processDataPayload, h1, hg, h2, extractDelta, h3, h4]
  · intro line h1 h2
    rw [List.isPrefixOf_iff_prefix,
      show ("data: ".toList : Str) = ['d', 'a', 't', 'a', ':', ' '] from rfl] at h1
    by_cases hg : jsTrim ((jsTrim line).drop 6) = []
    · simp [processDataLine, processDataPayload, h1, hg]
    · simp [processDataLine, processDataPayload, h1, hg, h2]
  · intro line h1 h2 h3 h4
    rw [List.isPrefixOf_iff_prefix,
      show ("data: ".toList : Str) = ['d', 'a', 't', 'a', ':', ' '] from rfl] at h1
    rw [List.isPrefixOf_iff_prefix,
      show ("event:".toList : Str) = ['e', 'v', 'e', 'n', 't', ':'] from rfl] at h3
    rw [List.isPrefixOf_iff_prefix,
      show ("id:".toList : Str) = ['i', 'd', ':'] from rfl] at h4
    simp [processHelperLine, h1, h2, h3, h4]

/-- Witness for `stream_deltas_characterised` at concrete inputs. -/
theorem stream_deltas_characterised_witness :
    processDataLine ("data: \x7b\"delta\":\"Z\"\x7d".toList) = some ("Z".toList)
    ∧ processDataLine ("event: ping".toList) = none
    ∧ processDataLine ("data: oops".toList) = none
    ∧ processHelperLine ("raw".toList) = some ("raw".toList) := by
  refine ⟨?_, ?_, ?_, ?_⟩
  · exact stream_deltas_characterised.2.2.2.1 ("data: \x7b\"delta\":\"Z\"\x7d".toList)
      (Json.obj [("delta".toList, Json.str "Z".toList)]) ("Z".toList)
      (by decide) (by rfl) (by rfl) (by decide)
  · exact stream_deltas_characterised.2.2.1 ("event: ping".toList) (by decide)
  · exact stream_deltas_characterised.2.2.2.2.1 ("data: oops".toList) (by decide) (by rfl)
  · exact stream_deltas_characterised.2.2.2.2.2 ("raw".toList)
      (by decide) (by decide) (by decide) (by decide)

/-- An if-chain over five truthy-field lookups is the priority search over the
five keys. -/
theorem findSome_chain (data : Json) (tail : ApiResult) (k1 k2 k3 k4 k5 : Str) :
    (match fieldIfTruthy data k1 with
     | some v => ApiResult.ok v
     | none =>
       match fieldIfTruthy data k2 with
       | some v => ApiResult.ok v
       | none =>
         match fieldIfTruthy data k3 with
         | some v => ApiResult.ok v
         | none =>
           match fieldIfTruthy data k4 with
           | some v => ApiResult.ok v
           | none =>
             match fieldIfTruthy data k5 with
             | some v => ApiResult.ok v
             | none => tail)
    = match [k1, k2, k3, k4, k5].findSome? (fun k => fieldIfTruthy data k) with
      | some v => ApiResult.ok v
      | none => tail := by
  simp only [List.findSome?_cons, List.findSome?_nil]
  cases fieldIfTruthy data k1 <;> cases fieldIfTruthy data k2 <;>
    cases fieldIfTruthy data k3 <;> cases fieldIfTruthy data k4 <;>
    cases fieldIfTruthy data k5 <;> rfl

/-- Claim C9 (amended): on a non-`null` body with no truthy `error` field the
extraction returns the first of the candidate keys holding a truthy value (not
merely a present one), else the bare-string body, else a truthy string
`message`, else the explicit invalid-format error. -/
theorem generateContract_matches_spec (data : Json) (hn : ¬ data = Json.null)
    (he : fieldIfTruthy data ("error".toList) = none) :
    generateContractExtract data = specContractExtract data := by
  cases data with
  | null => exact absurd rfl hn
  | bool b =>
    simp only [generateContractExtract, he, specContractExtract, firstTruthyContractField]
    rw [findSome_chain]
  | num raw =>
    simp only [generateContractExtract, he, specContractExtract, firstTruthyContractField]
    rw [findSome_chain]
  | str s =>
    simp only [generateContractExtract, he, specContractExtract, firstTruthyContractField]
    rw [findSome_chain]
  | arr xs =>
    simp only [generateContractExtract, he, specContractExtract, firstTruthyContractField]
    rw [findSome_chain]
  | obj fs =>
    simp only [generateContractExtract, he, specContractExtract, firstTruthyContractField]
    rw [findSome_chain]

/-- Witness for `generateContract_matches_spec` at a concrete body. -/
theorem generateContract_matches_spec_witness :
    generateContractExtract (Json.obj [("text".toList, Json.str "T".toList)])
      = specContractExtract (Json.obj [("text".toList, Json.str "T".toList)])
    ∧ generateContractExtract (Json.obj [("text".toList, Json.str "T".toList)])
      = ApiResult.ok (Json.str "T".toList) := by
  refine ⟨?_, rfl⟩
  exact generateContract_matches_spec (Json.obj [("text".toList, Json.str "T".toList)])
    (by intro h; exact Json.noConfusion h) rfl

/-- Claim C9 counterexample: on the body with `llm_response` present but empty
and `contract` set to `"B"`, the first present candidate key is
`llm_response` (value `""`), yet the call returns `"B"` — presence is not the
test, truthiness is. -/
theorem first_present_key_not_returned :
    (["llm_response".toList, "contract".toList, "text".toList, "content".toList,
        "result".toList, "message".toList].findSome?
      (fun k => jsProp (Json.obj [("llm_response".toList, Json.str []),
        ("contract".toList, Json.str "B".toList)]) k) = some (Json.str []))
    ∧ generateContractExtract (Json.obj [("llm_response".toList, Json.str []),
        ("contract".toList, Json.str "B".toList)]) = ApiResult.ok (Json.str "B".toList)
    ∧ (Json.str [] = Json.str "B".toList → False) := by
  refine ⟨rfl, rfl, ?_⟩
  intro h
  injection h with h2
  exact List.noConfusion h2

/-- Claim C10: whenever the parsed body carries a truthy `error` field, the
call rejects with that field's value, regardless of the other fields — no
contract text is returned. -/
theorem error_field_rejects (data e : Json)
    (h1 : jsProp data ("error".toList) = some e) (h2 : truthy e = true) :
    generateContractExtract data = ApiResult.errField e := by
  cases data with
  | null => simp [jsProp] at h1
  | bool b => simp [jsProp] at h1
  | num raw => simp [jsProp] at h1
  | str s => simp [jsProp] at h1
  | arr xs => simp [jsProp] at h1
  | obj fs =>
    rw [show ("error".toList : Str) = ['e', 'r', 'r', 'o', 'r'] from rfl] at h1
    simp [generateContractExtract, fieldIfTruthy, h1, h2]

/-- Witness for `error_field_rejects` at a concrete body. -/
theorem error_field_rejects_witness :
    jsProp (Json.obj [("error".toList, Json.str "boom".toList),
        ("llm_response".toList, Json.str "text".toList)]) ("error".toList)
      = some (Json.str "boom".toList)
    ∧ truthy (Json.str "boom".toList) = true
    ∧ generateContractExtract (Json.obj [("error".toList, Json.str "boom".toList),
        ("llm_response".toList, Json.str "text".toList)])
      = ApiResult.errField (Json.str "boom".toList) :=
  ⟨rfl, rfl, error_field_rejects _ _ rfl rfl⟩

/-- Appending a newline does not change a trailing trim. -/
theorem jsTrimEnd_newline (s : Str) : jsTrimEnd (s ++ ['\n']) = jsTrimEnd s := by
  simp [jsTrimEnd, List.reverse_append, List.dropWhile_cons, jsWhite]

/-- Joined lines are non-empty when there is at least one line. -/
theorem joinLinesNl_ne_nil (ls : List Str) (h : ¬ ls = []) : ¬ joinLinesNl ls = [] := by
  cases ls with
  | nil => exact absurd rfl h
  | cons l t => simp [joinLinesNl_cons]

/-- When the grouping finds no header, every line is preamble. -/
theorem splitAtHeaders_no_groups (ls : List Str) (h : (splitAtHeaders ls).2 = []) :
    (splitAtHeaders ls).1 = ls := by
  induction ls with
  | nil => rfl
  | cons l rest ih =>
    cases hl : matchHeader (jsTrim l) with
    | some kv => simp [splitAtHeaders, hl] at h
    | none =>
      simp only [splitAtHeaders, hl] at h ⊢
      rw [ih h]

/-- A fold of the parser loop over header-free lines only grows the preamble
accumulator (and the character index). -/
theorem foldl_parseStep_no_header (contract : Str) (lines : List Str)
    (h : ∀ l ∈ lines, matchHeader (jsTrim l) = none) : ∀ (n : Nat) (p : Str),
    ∃ m, lines.foldl (parseStep contract) ⟨[], none, n, p⟩
      = ⟨[], none, m, p ++ joinLinesNl lines⟩ := by
  induction lines with
  | nil => exact fun n p => ⟨n, by simp [joinLinesNl]⟩
  | cons l rest ih =>
    intro n p
    have hl : matchHeader (jsTrim l) = none := h l (List.mem_cons_self _ _)
    have hrest : ∀ x ∈ rest, matchHeader (jsTrim x) = none :=
      fun x hx => h x (List.mem_cons_of_mem _ hx)
    rw [List.foldl_cons,
      show parseStep contract ⟨[], none, n, p⟩ l
        = ⟨[], none, n + l.length + 1, p ++ l ++ ['\n']⟩ from by simp [parseStep, hl]]
    obtain ⟨m, hm⟩ := ih hrest (n + l.length + 1) (p ++ l ++ ['\n'])
    exact ⟨m, by rw [hm, joinLinesNl_cons]; simp⟩

/-- Claim C5 (amended): a non-empty document with zero header lines parses to
exactly one section titled `Contract`, level 0, whose body is the input with
trailing whitespace trimmed (leading whitespace is preserved), and the empty
document parses to zero sections. -/
theorem parse_no_header_fallback (d : Str) (h1 : ¬ d = [])
    (h2 : ∀ l ∈ splitNl d, matchHeader (jsTrim l) = none) :
    parseContractSections d
      = [⟨"Contract".toList, jsTrimEnd d, d ++ ['\n'], 0, (d.length : Int), 0⟩]
    ∧ parseContractSections [] = [] := by
  refine ⟨?_, rfl⟩
  rw [parseContractSections, if_neg h1]
  obtain ⟨m, hm⟩ := foldl_parseStep_no_header d (splitNl d) h2 0 []
  rw [joinLinesNl_splitNl, List.nil_append] at hm
  rw [hm]
  have hp : ¬ (d ++ ['\n']) = [] := by simp
  simp only [parseFinish]
  rw [if_pos ⟨hp, by trivial, by trivial⟩, jsTrimEnd_newline]

/-- Witness for `parse_no_header_fallback` at a concrete document. -/
theorem parse_no_header_fallback_witness :
    parseContractSections " hi ".toList
      = [⟨"Contract".toList, " hi".toList, " hi \n".toList, 0, 4, 0⟩]
    ∧ parseContractSections [] = [] :=
  parse_no_header_fallback " hi ".toList (by decide) (by decide)

/-- A fold of the parser loop from a state with an open section and an empty
preamble produces, at the body level, the already closed bodies followed by
the reference body computation. -/
theorem foldl_parseStep_in_section (contract : Str) (lines : List Str) :
    ∀ (secs : List ContractSection) (c : ContractSection) (n : Nat),
    (parseFinish contract (lines.foldl (parseStep contract) ⟨secs, some c, n, []⟩)).map
        (fun s => s.body)
      = secs.map (fun s => s.body) ++ bodiesFrom c.body lines := by
  induction lines with
  | nil =>
    intro secs c n
    simp [parseFinish, bodiesFrom, closeSection]
  | cons l rest ih =>
    intro secs c n
    rw [List.foldl_cons]
    cases hl : matchHeader (jsTrim l) with
    | some kv =>
      obtain ⟨level, title⟩ := kv
      rw [show parseStep contract ⟨secs, some c, n, []⟩ l
          = ⟨secs ++ [closeSection contract c ((n : Int) - l.length - 1)],
             some ⟨title, [], l ++ ['\n'], (n : Int), (n : Int) + l.length, level⟩,
             n + l.length + 1, []⟩ from by simp [parseStep, hl]]
      rw [ih]
      simp [bodiesFrom, hl, closeSection]
    | none =>
      rw [show parseStep contract ⟨secs, some c, n, []⟩ l
          = ⟨secs, some { c with body := c.body ++ l ++ ['\n'],
                                 fullText := c.fullText ++ l ++ ['\n'] },
             n + l.length + 1, []⟩ from by simp [parseStep, hl]]
      rw [ih]
      simp [bodiesFrom, hl]

/-- A fold of the parser loop from the initial preamble phase produces, at the
body level, the reference `bodiesPre` computation. -/
theorem foldl_parseStep_preamble (contract : Str) (lines : List Str) :
    ∀ (n : Nat) (p : Str), (¬ p = [] ∨ ¬ lines = []) →
    (parseFinish contract (lines.foldl (parseStep contract) ⟨[], none, n, p⟩)).map
        (fun s => s.body)
      = bodiesPre p lines := by
  induction lines with
  | nil =>
    intro n p hp
    rcases hp with hp | hp
    · simp [parseFinish, bodiesPre, hp]
    · exact absurd rfl hp
  | cons l rest ih =>
    intro n p _
    rw [List.foldl_cons]
    cases hl : matchHeader (jsTrim l) with
    | some kv =>
      obtain ⟨level, title⟩ := kv
      by_cases hpe : p = []
      · subst hpe
        rw [show parseStep contract ⟨[], none, n, []⟩ l
            = ⟨[], some ⟨title, [], l ++ ['\n'], (n : Int), (n : Int) + l.length, level⟩,
               n + l.length + 1, []⟩ from by simp [parseStep, hl]]
        rw [foldl_parseStep_in_section contract rest [] _ _]
        simp [bodiesPre, hl]
      · rw [show parseStep contract ⟨[], none, n, p⟩ l
            = ⟨[⟨"Preamble".toList, jsTrimEnd p, p, 0, (n : Int) - l.length - 1, 0⟩],
               some ⟨title, [], l ++ ['\n'], (n : Int), (n : Int) + l.length, level⟩,
               n + l.length + 1, []⟩ from by simp [parseStep, hl, hpe]]
        rw [foldl_parseStep_in_section contract rest _ _ _]
        simp [bodiesPre, hl, hpe]
    | none =>
      rw [show parseStep contract ⟨[], none, n, p⟩ l
          = ⟨[], none, n + l.length + 1, p ++ l ++ ['\n']⟩ from by simp [parseStep, hl]]
      rw [ih _ _ (Or.inl (by simp))]
      simp [bodiesPre, hl]

/-- The reference body computation of an open section equals the trailing-trim
of the accumulated body extended by the group's remaining body lines, followed
by the bodies of the later groups. -/
theorem bodiesFrom_spec (lines : List Str) : ∀ b,
    bodiesFrom b lines
      = jsTrimEnd (b ++ joinLinesNl (splitAtHeaders lines).1)
        :: (splitAtHeaders lines).2.map (fun g => jsTrimEnd (joinLinesNl g.2)) := by
  induction lines with
  | nil => intro b; simp [bodiesFrom, splitAtHeaders, joinLinesNl]
  | cons l rest ih =>
    intro b
    cases hl : matchHeader (jsTrim l) with
    | some kv =>
      simp only [bodiesFrom, splitAtHeaders, hl]
      rw [ih []]
      simp [joinLinesNl]
    | none =>
      simp only [bodiesFrom, splitAtHeaders, hl]
      rw [ih (b ++ l ++ ['\n'])]
      simp [joinLinesNl_cons]

/-- The reference body computation of the preamble phase, described through
the line grouping. -/
theorem bodiesPre_spec (lines : List Str) : ∀ p,
    bodiesPre p lines
      = (if (splitAtHeaders lines).2 = []
         then [jsTrimEnd (p ++ joinLinesNl (splitAtHeaders lines).1)]
         else (if p ++ joinLinesNl (splitAtHeaders lines).1 = [] then []
               else [jsTrimEnd (p ++ joinLinesNl (splitAtHeaders lines).1)])
              ++ (splitAtHeaders lines).2.map (fun g => jsTrimEnd (joinLinesNl g.2))) := by
  induction lines with
  | nil => intro p; simp [bodiesPre, splitAtHeaders, joinLinesNl]
  | cons l rest ih =>
    intro p
    cases hl : matchHeader (jsTrim l) with
    | some kv =>
      simp only [bodiesPre, splitAtHeaders, hl]
      rw [bodiesFrom_spec rest []]
      simp [joinLinesNl]
    | none =>
      simp only [bodiesPre, splitAtHeaders, hl]
      rw [ih (p ++ l ++ ['\n'])]
      simp [joinLinesNl_cons]

/-- Claim C6 (amended): for every non-empty document, the bodies of the parsed
sections are, in order: when any lines precede the first header (or the
document has no header at all), their joined text with trailing whitespace
trimmed; then, for each header line, the text strictly between that header
line and the next header line (or the end of the document) with trailing —
not leading — whitespace trimmed.  `joinLinesNl` of a group's body lines is
exactly that in-between text (up to the trailing newline, which the trailing
trim erases). -/
theorem parse_bodies_trailing_trim (d : Str) (h : ¬ d = []) :
    (parseContractSections d).map (fun s => s.body)
      = (if (splitAtHeaders (splitNl d)).1 = [] then []
         else [jsTrimEnd (joinLinesNl (splitAtHeaders (splitNl d)).1)])
        ++ (splitAtHeaders (splitNl d)).2.map (fun g => jsTrimEnd (joinLinesNl g.2)) := by
  rw [parseContractSections, if_neg h]
  rw [foldl_parseStep_preamble d (splitNl d) 0 [] (Or.inr (splitNl_ne_nil d))]
  rw [bodiesPre_spec (splitNl d) []]
  by_cases hg : (splitAtHeaders (splitNl d)).2 = []
  · rw [if_pos hg, hg, splitAtHeaders_no_groups _ hg, if_neg (splitNl_ne_nil d)]
    simp
  · rw [if_neg hg, List.nil_append]
    by_cases hp : (splitAtHeaders (splitNl d)).1 = []
    · rw [hp, if_pos rfl]
      simp [joinLinesNl]
    · rw [if_neg hp, if_neg (joinLinesNl_ne_nil _ hp)]

/-- Witness for `parse_bodies_trailing_trim` at a concrete document with a
preamble and two sections. -/
theorem parse_bodies_trailing_trim_witness :
    (parseContractSections "p\n# A\n\nx \n# B\nbb".toList).map (fun s => s.body)
      = ["p".toList, "\nx".toList, "bb".toList] := by
  rw [parse_bodies_trailing_trim "p\n# A\n\nx \n# B\nbb".toList (by decide)]
  decide

end GenPact
